import Mathlib

/-!
Verification development for the Intel HEX loader repository.

Part A embeds the MicroPython protocol driver (`PICO_loader/main.py`) and the
transfer agents (`PICO_loader/pico_serial_loader.py`, `load_hex_through_GPIO.py`),
which are present in the source tree.  Strings are modelled as `List Char`
(ASCII scope: CPython's `int(s, 16)` and `str.strip` additionally accept
non-ASCII unicode digits and whitespace, which the protocol never carries and
which this model does not cover).

Part B models the core `IntelHexLoader` engine (record decoder, memory builder
and derived views).  Its module `intel_hex_loader.py` is not part of the
available sources — only its tests and callers are — so those definitions are
modelled from the specification, with the tests of
`test_intel_hex_loader.py` as cross-checks.
-/

/-- ASCII whitespace as recognised by `str.strip()` (ASCII fragment). -/
def pyIsSpace (c : Char) : Bool :=
  c = ' ' ∨ c = '\t' ∨ c = '\n' ∨ c = '\r' ∨ c = '\x0b' ∨ c = '\x0c'

/-- `str.strip()`: remove leading and trailing whitespace. -/
def pyStrip (l : List Char) : List Char :=
  ((l.dropWhile pyIsSpace).reverse.dropWhile pyIsSpace).reverse

/-- Value of one hexadecimal digit, upper or lower case (ASCII codes:
`0`–`9` are 48–57, `a`–`f` are 97–102, `A`–`F` are 65–70). -/
def hexDigitVal (c : Char) : Option Nat :=
  if 48 ≤ c.toNat ∧ c.toNat ≤ 57 then some (c.toNat - 48)
  else if 97 ≤ c.toNat ∧ c.toNat ≤ 102 then some (c.toNat - 97 + 10)
  else if 65 ≤ c.toNat ∧ c.toNat ≤ 70 then some (c.toNat - 65 + 10)
  else none

/-- A character that is a hexadecimal digit. -/
def isHexChar (c : Char) : Bool :=
  (hexDigitVal c).isSome

/-- Digit run of CPython's base-16 integer literal: `digit (('_')? digit)*`.
`acc` is the value of the digits already consumed. -/
def hexDigitsAux (acc : Nat) : List Char → Option Nat
  | [] => some acc
  | '_' :: c :: r =>
    match hexDigitVal c with
    | some v => hexDigitsAux (16 * acc + v) r
    | none => none
  | '_' :: [] => none
  | c :: r =>
    match hexDigitVal c with
    | some v => hexDigitsAux (16 * acc + v) r
    | none => none

/-- Nonempty digit run with single underscores between digits. -/
def hexDigits : List Char → Option Nat
  | [] => none
  | c :: r =>
    match hexDigitVal c with
    | some v => hexDigitsAux v r
    | none => none

/-- CPython's `int(s, 16)` (ASCII fragment): surrounding whitespace, an
optional sign, an optional `0x`/`0X` prefix (which may be followed by one
underscore), then an underscore-separated hexadecimal digit run. -/
def pyIntHex (s : List Char) : Option Int :=
  let t := pyStrip s
  let sgn : Int := match t with
    | '-' :: _ => -1
    | _ => 1
  let u : List Char := match t with
    | '+' :: r => r
    | '-' :: r => r
    | r => r
  let core : Option Nat := match u with
    | '0' :: c :: r =>
      if c = 'x' ∨ c = 'X' then
        match r with
        | '_' :: r2 => hexDigits r2
        | _ => hexDigits r
      else hexDigits u
    | _ => hexDigits u
  core.map (fun v => sgn * (v : Int))

/-- `line.split(sep, maxsplit)` for `sep = ':'`: `k` splits remain, `acc` holds
the current field reversed. -/
def splitColonAux : Nat → List Char → List Char → List (List Char)
  | _, acc, [] => [acc.reverse]
  | 0, acc, l => [acc.reverse ++ l]
  | Nat.succ k, acc, c :: r =>
    if c = ':' then acc.reverse :: splitColonAux k [] r
    else splitColonAux (Nat.succ k) (c :: acc) r

/-- Python `line.split(':', maxsplit)`. -/
def pySplitColon (maxsplit : Nat) (l : List Char) : List (List Char) :=
  splitColonAux maxsplit [] l

/-- Error codes of the PICO ASCII protocol (`ERR:<code>` replies). -/
inductive ErrCode where
  | formatErr
  | lengthErr
  | commandErr
deriving DecidableEq, Repr

/-- Result of `PicoHexLoader.parse_command`. -/
inductive ParseResult where
  | cmdP
  | cmdE
  | cmdW (startAddress : Int) (length : Int) (data : List Int)
  | perr (code : ErrCode)
deriving DecidableEq, Repr

/-- The byte-conversion loop of `parse_command`: `int(hex_data[i:i+2], 16)` for
`i in range(0, len(hex_data), 2)`; the first failing chunk raises (None). -/
def parseChunks : List Char → Option (List Int)
  | [] => some []
  | [a] =>
    match pyIntHex [a] with
    | some v => some [v]
    | none => none
  | a :: b :: r =>
    match pyIntHex [a, b], parseChunks r with
    | some v, some vs => some (v :: vs)
    | _, _ => none

/-- The `W:`-branch of `PicoHexLoader.parse_command`, applied to
`line.split(':', 3)`; any exception inside the `try` yields `ERR:FORMAT`. -/
def parseW (parts : List (List Char)) : ParseResult :=
  match parts with
  | [_, p1, p2, p3] =>
    match pyIntHex p1 with
    | none => .perr .formatErr
    | some sa =>
      match pyIntHex p2 with
      | none => .perr .formatErr
      | some n =>
        if n = 0 ∨ 255 < n then .perr .lengthErr
        else if (p3.length : Int) ≠ n * 2 then .perr .lengthErr
        else
          match parseChunks p3 with
          | none => .perr .formatErr
          | some d => .cmdW sa n d
  | _ => .perr .formatErr

/-- `PicoHexLoader.parse_command`. -/
def parseCommand (line0 : List Char) : ParseResult :=
  let line := pyStrip line0
  if line.length = 1 then
    if line = ['P'] then .cmdP
    else if line = ['E'] then .cmdE
    else .perr .commandErr
  else if List.isPrefixOf ['W', ':'] line then parseW (pySplitColon 3 line)
  else .perr .commandErr

/-- Whether a parse result is an accepted write command. -/
def isCmdW : ParseResult → Bool
  | .cmdW _ _ _ => true
  | _ => false

/-- The write loop of `PicoHexLoader.handle_write_command`: the `i`-th byte
goes to address `(start_address + i) & 0xFF`. -/
def handleWrite (startAddress : Int) (n : Nat) (data : List Int) : List (Nat × Int) :=
  (List.range n).map (fun (i : Nat) => (((startAddress + (i : Int)) % 256).toNat, data.getD i 0))

/-- GPIO output state of the driver: 8 address pins, 8 data pins, one /WE pin
(active low, inactive = 1). -/
structure PinState where
  addrPins : List Nat
  dataPins : List Nat
  wePin : Nat
deriving DecidableEq, Repr

/-- Pin levels after `write_byte(address, data)`: address and data bits are
`(v >> i) & 1`, /WE ends high.  `data` may be negative (Python arithmetic
shift on the two's-complement form). -/
def writeBytePins (address : Nat) (data : Int) (_ps : PinState) : PinState :=
  { addrPins := (List.range 8).map (fun i => address / 2 ^ i % 2)
    dataPins := (List.range 8).map (fun i => ((Int.fdiv data (2 ^ i)).emod 2).toNat)
    wePin := 1 }

/-- The `E` branch of `PicoHexLoader.run`: every address and data pin to 0,
/WE to its inactive (high) level. -/
def resetPinsE (ps : PinState) : PinState :=
  { addrPins := ps.addrPins.map (fun _ => 0)
    dataPins := ps.dataPins.map (fun _ => 0)
    wePin := 1 }

/-- Initial pin state of `PicoHexLoader.__init__`: all low, /WE high. -/
def pinsInit : PinState :=
  ⟨[0, 0, 0, 0, 0, 0, 0, 0], [0, 0, 0, 0, 0, 0, 0, 0], 1⟩

/-- Observable outcome of one iteration of `PicoHexLoader.run` on a received
line: the reply sent (without the trailing newline), the `write_byte` calls
performed, and the resulting pin state. -/
structure StepOut where
  reply : Option (List Char)
  writes : List (Nat × Int)
  pins : PinState
deriving DecidableEq, Repr

/-- Reply text for a parse error. -/
def errReply : ErrCode → List Char
  | .formatErr => "ERR:FORMAT".toList
  | .lengthErr => "ERR:LENGTH".toList
  | .commandErr => "ERR:COMMAND".toList

/-- One iteration of `PicoHexLoader.run` on a received line.  An empty line is
treated as "no data" (`if not line: continue`) and produces no reply. -/
def runStep (line : List Char) (ps : PinState) : StepOut :=
  if line = [] then ⟨none, [], ps⟩
  else
    match parseCommand line with
    | .perr c => ⟨some (errReply c), [], ps⟩
    | .cmdP => ⟨some "OK:READY".toList, [], ps⟩
    | .cmdE => ⟨some "OK:END".toList, [], resetPinsE ps⟩
    | .cmdW sa n d =>
      let ws := handleWrite sa n.toNat d
      ⟨some "OK:WRITE".toList, ws, ws.foldl (fun p w => writeBytePins w.1 w.2 p) ps⟩

/-- The inner coalescing loop of `PicoSerialLoader.transfer_hex_file`: starting
from a batch begun at address `start` that already holds `k` bytes, consume
further pairs while the address is exactly `start + k` and the batch holds
fewer than `CHUNK_SIZE = 128` bytes.  Returns the extra data bytes and the
unconsumed remainder. -/
def chunkFrom (start k : Nat) : List (Nat × Nat) → List Nat × List (Nat × Nat)
  | [] => ([], [])
  | (a, b) :: rest =>
    if k < 128 ∧ a = start + k then
      (b :: (chunkFrom start (k + 1) rest).1, (chunkFrom start (k + 1) rest).2)
    else ([], (a, b) :: rest)

/-- The outer loop of `transfer_hex_file` over the address-sorted
`(address, byte)` pairs, with fuel (each outer iteration consumes at least one
pair, so `l.length` fuel is enough — see `chunksF_fuel`). -/
def chunksF : Nat → List (Nat × Nat) → List (Nat × List Nat)
  | 0, _ => []
  | _, [] => []
  | Nat.succ n, (a, b) :: rest =>
    (a, b :: (chunkFrom a 1 rest).1) :: chunksF n (chunkFrom a 1 rest).2

/-- The batches `(absolute start address, data bytes)` built by
`transfer_hex_file` from the address-sorted `(address, byte)` pairs. -/
def chunks (l : List (Nat × Nat)) : List (Nat × List Nat) :=
  chunksF l.length l

/-- What `transfer_hex_file` sends: `write_data(start_addr & 0xFF, data)`
for each batch. -/
def transferEmits (l : List (Nat × Nat)) : List (Nat × List Nat) :=
  (chunks l).map (fun c => (c.1 % 256, c.2))

/-- The per-byte emission of `load_hex_through_GPIO.main`:
`output_byte_through_gpio(address & 0xFF, memory[address])` in ascending
address order. -/
def gpioEmits (l : List (Nat × Nat)) : List (Nat × Nat) :=
  l.map (fun p => (p.1 % 256, p.2))

/-- `(start, b0) :: (start+1, b1) :: ...`: the pairs a batch stands for. -/
def expandFrom (start : Nat) : List Nat → List (Nat × Nat)
  | [] => []
  | b :: d => (start, b) :: expandFrom (start + 1) d

/-- All pairs a batch list stands for, in emission order. -/
def expandChunks : List (Nat × List Nat) → List (Nat × Nat)
  | [] => []
  | c :: t => expandFrom c.1 c.2 ++ expandChunks t

/-!  Part B: the core `IntelHexLoader` engine.  The module
`intel_hex_loader.py` is not among the available sources, so everything below
is modelled from the specification (§4.2 record decoder, §4.3 memory builder,
§4.4 view derivation), cross-checked against `test_intel_hex_loader.py`. -/

/-- Modelled from the spec: the decode-failure taxonomy of §7 for the missing
`intel_hex_loader.py` decoder. -/
inductive DecodeError where
  | missingStartMarker
  | invalidHexDigit
  | lineTooShort
  | lengthMismatch
  | checksumMismatch
deriving DecidableEq, Repr

/-- Modelled from the spec: the record-kind tag of §3 (six known kinds plus an
explicit unknown carrying the raw type byte). -/
inductive RecordType where
  | data
  | endOfFile
  | extSegmentAddr
  | startSegmentAddr
  | extLinearAddr
  | startLinearAddr
  | unknown (b : Nat)
deriving DecidableEq, Repr

/-- Modelled from the spec: one decoded record (§3); the checksum byte is kept
so that the checksum identity can be stated. -/
structure HexRecord where
  length : Nat
  address : Nat
  rtype : RecordType
  typeByte : Nat
  data : List Nat
  checksum : Nat
deriving DecidableEq, Repr

/-- Modelled from the spec: the type-byte-to-kind map of §4.2 step 6. -/
def kindOf (ty : Nat) : RecordType :=
  if ty = 0 then .data
  else if ty = 1 then .endOfFile
  else if ty = 2 then .extSegmentAddr
  else if ty = 3 then .startSegmentAddr
  else if ty = 4 then .extLinearAddr
  else if ty = 5 then .startLinearAddr
  else .unknown ty

/-- One byte from two hexadecimal characters. -/
def hexByte (a b : Char) : Option Nat :=
  match hexDigitVal a, hexDigitVal b with
  | some x, some y => some (16 * x + y)
  | _, _ => none

/-- An even-length hexadecimal character sequence as bytes; `none` on a
non-hex character or odd length. -/
def hexBytes : List Char → Option (List Nat)
  | [] => some []
  | [_] => none
  | a :: b :: r =>
    match hexByte a b, hexBytes r with
    | some v, some vs => some (v :: vs)
    | _, _ => none

/-- Modelled from the spec: the record decoder of §4.2 for the missing
`intel_hex_loader.py`.  Steps: start marker, hex/evenness, minimum five bytes,
declared length must match the actual payload-plus-checksum count, checksum
comparison against the two's-complement formula of step 5.  Field decoding and
validation of the byte sequence after the marker live in `decodeBytes`. -/
def decodeBytes (bytes : List Nat) : Except DecodeError HexRecord :=
  match bytes with
  | len :: hi :: lo :: ty :: c :: tl =>
    if (c :: tl).length = len + 1 then
      if (0x100 - ((len + hi + lo + ty + ((c :: tl).take len).sum) % 0x100)) % 0x100
          = (c :: tl).getD len 0 then
        .ok ⟨len, 256 * hi + lo, kindOf ty, ty, (c :: tl).take len, (c :: tl).getD len 0⟩
      else .error .checksumMismatch
    else .error .lengthMismatch
  | _ => .error .lineTooShort

def decodeLine (line : List Char) : Except DecodeError HexRecord :=
  match line with
  | [] => .error .missingStartMarker
  | c0 :: rest =>
    if c0 = ':' then
      match hexBytes rest with
      | none => .error .invalidHexDigit
      | some bytes => decodeBytes bytes
    else .error .missingStartMarker

/-- Modelled from the spec: the test-side checksum formula of §4.2 step 5 /
`_calculate_checksum(length, address, record_type, data)`. -/
def calcChecksum (len addr ty : Nat) (data : List Nat) : Nat :=
  (0x100 - ((len + addr / 256 + addr % 256 + ty + data.sum) % 0x100)) % 0x100

/-- Split raw text on newline characters. -/
def splitNL : List Char → List (List Char)
  | [] => [[]]
  | c :: r =>
    if c = '\n' then [] :: splitNL r
    else
      match splitNL r with
      | h :: t => (c :: h) :: t
      | [] => [[c]]

/-- Modelled from the spec: the line tokenizer of §4.1 — split on `\n`,
trim whitespace (covering a trailing `\r`), skip blank lines. -/
def tokenize (text : List Char) : List (List Char) :=
  ((splitNL text).map pyStrip).filter (fun l => l ≠ [])

/-- Decode every tokenized line in order; the first failure aborts (§7). -/
def decodeAll : List (List Char) → Except DecodeError (List HexRecord)
  | [] => .ok []
  | l :: rest =>
    match decodeLine l with
    | .error e => .error e
    | .ok r =>
      match decodeAll rest with
      | .error e => .error e
      | .ok rs => .ok (r :: rs)

/-- Modelled from the spec: the memory-builder state of §4.3 — extension base,
address-to-byte image, optional entry point.  The image is kept as an
association list in which the most recent write comes first, so
`List.lookup` realises last-write-wins. -/
structure BuildState where
  base : Nat
  memory : List (Nat × Nat)
  entryPoint : Option Nat
deriving DecidableEq, Repr

/-- Write consecutive bytes starting at `a`; each write is prepended, so later
writes shadow earlier ones under `List.lookup`. -/
def writeBytesAux (m : List (Nat × Nat)) (a : Nat) : List Nat → List (Nat × Nat)
  | [] => m
  | d :: rest => writeBytesAux ((a, d) :: m) (a + 1) rest

/-- Big-endian value of a byte sequence. -/
def beVal (l : List Nat) : Nat :=
  l.foldl (fun acc b => 256 * acc + b) 0

/-- Modelled from the spec: one step of the memory builder (§4.3). -/
def applyRecord (st : BuildState) (r : HexRecord) : BuildState :=
  match r.rtype with
  | .data => { st with memory := writeBytesAux st.memory (st.base + r.address) r.data }
  | .extSegmentAddr => { st with base := beVal r.data * 16 }
  | .extLinearAddr => { st with base := beVal r.data * 65536 }
  | .startSegmentAddr => { st with entryPoint := some (beVal r.data) }
  | .startLinearAddr => { st with entryPoint := some (beVal r.data) }
  | .endOfFile => st
  | .unknown _ => st

/-- Modelled from the spec: fold the record sequence from a fresh state
(extension base reset to 0, empty image). -/
def buildImage (rs : List HexRecord) : BuildState :=
  rs.foldl applyRecord ⟨0, [], none⟩

/-- Modelled from the spec: a loader instance's fields — record sequence,
memory image, entry point (`start_address`). -/
structure LoaderState where
  records : List HexRecord
  memory : List (Nat × Nat)
  startAddress : Option Nat
deriving DecidableEq, Repr

/-- Modelled from the spec: `load_string` as one atomic operation (§5): on any
decode failure the prior state is returned untouched together with the error;
on success the record sequence and image are replaced wholesale. -/
def loadString (st : LoaderState) (text : List Char) : LoaderState × Option DecodeError :=
  match decodeAll (tokenize text) with
  | .error e => (st, some e)
  | .ok rs =>
    let b := buildImage rs
    (⟨rs, b.memory, b.entryPoint⟩, none)

/-- Modelled from the spec: `to_binary(fill_byte, start, end)` with explicit
bounds (§4.4) — for every address in `[start, end]` the stored byte if
present, else the fill byte. -/
def toBinary (mem : List (Nat × Nat)) (fill start stop : Nat) : List Nat :=
  (List.range (stop - start + 1)).map (fun i => ((mem.lookup (start + i)).getD fill))

/-- Modelled from the spec: the merge loop of `regions()` (§4.4) — `(s, e)` is
the range being grown; a sorted address extends it when it is exactly
`e + 1`, otherwise it closes the range and starts a new one. -/
def regionsAux (s e : Nat) : List Nat → List (Nat × Nat)
  | [] => [(s, e)]
  | a :: rest =>
    if a = e + 1 then regionsAux s a rest
    else (s, e) :: regionsAux a a rest

/-- Modelled from the spec: `regions()` / `get_memory_map()` over the sorted
list of addresses present in the image (§4.4). -/
def regions : List Nat → List (Nat × Nat)
  | [] => []
  | a :: rest => regionsAux a a rest

/-- Scenario 3 of the spec: extended linear address `0x0800`, one data
record, end of file. -/
def sample3 : List Char :=
  ":020000040800F2\n:10000000214601360121470136007EFE09D2194002\n:00000001FF".toList

/-- The payload bytes of the data record shared by scenarios 1 and 3. -/
def samplePayload : List Nat :=
  [0x21, 0x46, 0x01, 0x36, 0x01, 0x21, 0x47, 0x01, 0x36, 0x00, 0x7E, 0xFE, 0x09, 0xD2, 0x19, 0x40]

/-- Scenario 2 of the spec: the data record of scenario 1 with its checksum
byte replaced by `FF`. -/
def sample2bad : List Char :=
  ":10000000214601360121470136007EFE09D21940FF".toList

/-- Acceptance condition of the amended claim C3, stated on the
whitespace-stripped line: it splits at the first three colons into exactly
four fields, the address and length fields parse under Python `int(x, 16)`,
the parsed length is in `[1, 255]`, the data field has exactly `2 * length`
characters, and each consecutive two-character group of it parses under
`int(x, 16)`. -/
def wAcceptAmended (s : List Char) : Bool :=
  match pySplitColon 3 s with
  | [_, p1, p2, p3] =>
    (pyIntHex p1).isSome &&
    (match pyIntHex p2 with
     | some n =>
       decide (1 ≤ n) && decide (n ≤ 255) && decide ((p3.length : Int) = 2 * n) &&
         (parseChunks p3).isSome
     | none => false)
  | _ => false

theorem hexDigitVal_lt {c : Char} {v : Nat} (h : hexDigitVal c = some v) : v < 16 := by
  unfold hexDigitVal at h
  split at h
  · cases h; omega
  · split at h
    · cases h; omega
    · split at h
      · cases h; omega
      · cases h

theorem hexByte_lt {a b : Char} {v : Nat} (h : hexByte a b = some v) : v < 256 := by
  unfold hexByte at h
  cases ha : hexDigitVal a with
  | none => rw [ha] at h; cases h
  | some x =>
    cases hb : hexDigitVal b with
    | none => rw [ha, hb] at h; cases h
    | some y =>
      rw [ha, hb] at h
      cases h
      have := hexDigitVal_lt ha
      have := hexDigitVal_lt hb
      omega

theorem hexBytes_lt : ∀ (l : List Char) (bs : List Nat), hexBytes l = some bs →
    ∀ b ∈ bs, b < 256
  | [], _, h => by
    cases h
    intro b hb
    cases hb
  | [a], _, h => by
    cases h
  | a :: b :: r, bs, h => by
    unfold hexBytes at h
    cases hv : hexByte a b with
    | none => rw [hv] at h; cases h
    | some v =>
      cases hr : hexBytes r with
      | none => rw [hv, hr] at h; cases h
      | some vs =>
        rw [hv, hr] at h
        cases h
        intro x hx
        rcases List.mem_cons.mp hx with h1 | h1
        · subst h1; exact hexByte_lt hv
        · exact hexBytes_lt r vs hr x h1

theorem checksum_total (s : Nat) : (s + (0x100 - s % 0x100) % 0x100) % 0x100 = 0 := by
  omega

theorem decodeAll_error_of_mem : ∀ (ls : List (List Char)) (l : List Char), l ∈ ls →
    (decodeLine l).toOption = none → ∃ e, decodeAll ls = .error e := by
  intro ls
  induction ls with
  | nil =>
    intro l hl
    cases hl
  | cons l0 rest ih =>
    intro l hl hnone
    rcases List.mem_cons.mp hl with h1 | h1
    · subst h1
      cases hd : decodeLine l with
      | error e => exact ⟨e, by unfold decodeAll; rw [hd]⟩
      | ok r => rw [hd] at hnone; simp [Except.toOption] at hnone
    · cases hd : decodeLine l0 with
      | error e => exact ⟨e, by unfold decodeAll; rw [hd]⟩
      | ok r =>
        obtain ⟨e, he⟩ := ih l h1 hnone
        exact ⟨e, by unfold decodeAll; rw [hd, he]⟩

theorem lookup_writeBytesAux_lt : ∀ (data : List Nat) (m : List (Nat × Nat)) (a k : Nat),
    k < a → (writeBytesAux m a data).lookup k = m.lookup k := by
  intro data
  induction data with
  | nil =>
    intro m a k _
    rfl
  | cons d rest ih =>
    intro m a k hk
    unfold writeBytesAux
    rw [ih _ _ _ (by omega)]
    have hne : (k == a) = false := by
      simp only [beq_eq_false_iff_ne, ne_eq]
      omega
    simp [List.lookup, hne]

theorem lookup_writeBytesAux : ∀ (data : List Nat) (m : List (Nat × Nat)) (a i : Nat),
    i < data.length → (writeBytesAux m a data).lookup (a + i) = some (data.getD i 0) := by
  intro data
  induction data with
  | nil =>
    intro m a i hi
    simp at hi
  | cons d rest ih =>
    intro m a i hi
    unfold writeBytesAux
    cases i with
    | zero =>
      rw [Nat.add_zero, lookup_writeBytesAux_lt rest _ _ _ (by omega)]
      simp [List.lookup]
    | succ j =>
      have hj : j < rest.length := by
        simp [List.length_cons] at hi
        omega
      have hadd : a + (j + 1) = (a + 1) + j := by omega
      rw [hadd, ih _ _ _ hj]
      rfl

/-- C1: for every decoded record line the accepted checksum byte equals the
two's-complement of `(length + address_high + address_low + type + Σpayload)`
modulo 256, so the sum of all decoded bytes of a valid line including the
checksum is 0 modulo 256; for the record
`:10000000214601360121470136007EFE09D2194002` the checksum is `0x02`. -/
theorem c1_checksum_formula :
    (∀ (line : List Char) (r : HexRecord), decodeLine line = .ok r →
      r.checksum = calcChecksum r.length r.address r.typeByte r.data ∧
      (r.length + r.address / 256 + r.address % 256 + r.typeByte + r.data.sum + r.checksum)
          % 256 = 0) ∧
    calcChecksum 0x10 0 0 samplePayload = 0x02 ∧
    (decodeLine (":10000000214601360121470136007EFE09D2194002".toList)).toOption.map
        HexRecord.checksum = some 0x02 := by
  refine ⟨?_, by decide, by decide⟩
  intro line r h
  rcases line with _ | ⟨c0, rest⟩
  · simp [decodeLine] at h
  · by_cases hc : c0 = ':'
    · subst hc
      cases hb : hexBytes rest with
      | none => simp [decodeLine, hb] at h
      | some bytes =>
        have h2 : decodeBytes bytes = .ok r := by simpa [decodeLine, hb] using h
        rcases bytes with _ | ⟨len, _ | ⟨hi, _ | ⟨lo, _ | ⟨ty, _ | ⟨c, tl⟩⟩⟩⟩⟩
        · simp [decodeBytes] at h2
        · simp [decodeBytes] at h2
        · simp [decodeBytes] at h2
        · simp [decodeBytes] at h2
        · simp [decodeBytes] at h2
        · have hhi : hi < 256 := hexBytes_lt _ _ hb hi (by simp)
          have hlo : lo < 256 := hexBytes_lt _ _ hb lo (by simp)
          simp only [decodeBytes] at h2
          split_ifs at h2 with hlen hchk
          · cases h2
            have hd1 : (256 * hi + lo) / 256 = hi := by omega
            have hd2 : (256 * hi + lo) % 256 = lo := by omega
            constructor
            · unfold calcChecksum
              simp only [hd1, hd2]
              exact hchk.symm
            · simp only [hd1, hd2]
              rw [← hchk]
              exact checksum_total _
    · simp [decodeLine, hc] at h

/-- C2: a load whose input contains a malformed line fails with the decoder's
typed error and leaves the loader's prior record sequence and memory image
untouched — no partially applied image.  (The atomicity is the spec's §5
contract; `intel_hex_loader.py` itself is not among the sources.) -/
theorem c2_load_atomic :
    (∀ (st : LoaderState) (text : List Char),
      (∃ l ∈ tokenize text, (decodeLine l).toOption = none) →
      ∃ e, loadString st text = (st, some e)) ∧
    (∀ (st : LoaderState) (text : List Char) (e : DecodeError),
      decodeAll (tokenize text) = .error e → loadString st text = (st, some e)) := by
  constructor
  · rintro st text ⟨l, hm, hn⟩
    obtain ⟨e, he⟩ := decodeAll_error_of_mem _ _ hm hn
    exact ⟨e, by unfold loadString; rw [he]⟩
  · intro st text e he
    unfold loadString
    rw [he]

theorem c2_load_atomic_witness :
    (∃ l ∈ tokenize sample2bad, (decodeLine l).toOption = none) ∧
    (∃ e, loadString ⟨[], [(7, 7)], none⟩ sample2bad = (⟨[], [(7, 7)], none⟩, some e)) ∧
    loadString ⟨[], [(7, 7)], none⟩ sample2bad =
      (⟨[], [(7, 7)], none⟩, some DecodeError.checksumMismatch) :=
  ⟨by decide, c2_load_atomic.1 _ _ (by decide), by decide⟩

/-- C5: an accepted write of `n = data.length` bytes starting at `s` performs
its `i`-th write at the 8-bit address `(s + i) mod 256` (wrapping past `0xFF`)
with the `i`-th data byte unchanged. -/
theorem c5_write_wrap : ∀ (s : Int) (data : List Int) (i : Nat), i < data.length →
    (handleWrite s data.length data).get? i =
      some (((s + (i : Int)) % 256).toNat, data.getD i 0) := by
  intro s data i hi
  unfold handleWrite
  rw [List.get?_map, List.get?_range hi]
  rfl

theorem c5_write_wrap_witness :
    (1 < ([(171 : Int), 1]).length) ∧
    (handleWrite (-1) ([(171 : Int), 1]).length [171, 1]).get? 1 =
      some ((((-1 : Int) + ((1 : Nat) : Int)) % 256).toNat, ([(171 : Int), 1]).getD 1 0) :=
  ⟨by decide, c5_write_wrap (-1) [171, 1] 1 (by decide)⟩

theorem c1_checksum_formula_witness :
    decodeLine (":10000000214601360121470136007EFE09D2194002".toList) =
      .ok (⟨16, 0, .data, 0, samplePayload, 2⟩ : HexRecord) ∧
    ((⟨16, 0, .data, 0, samplePayload, 2⟩ : HexRecord).checksum =
      calcChecksum 16 0 0 samplePayload) ∧
    ((16 : Nat) + 0 / 256 + 0 % 256 + 0 + samplePayload.sum + 2) % 256 = 0 :=
  ⟨rfl,
   (c1_checksum_formula.1 (":10000000214601360121470136007EFE09D2194002".toList)
     ⟨16, 0, .data, 0, samplePayload, 2⟩ rfl).1,
   (c1_checksum_formula.1 (":10000000214601360121470136007EFE09D2194002".toList)
     ⟨16, 0, .data, 0, samplePayload, 2⟩ rfl).2⟩

/-- C7: an `ExtendedLinearAddress` record with 2-byte big-endian payload value
`v` sets the extension base to `v * 2^16` and changes nothing else; a `Data`
record stores byte `i` at absolute address `base + address + i`; concretely,
after `:020000040800F2` the following 16-byte data record at address `0x0000`
lands at `0x08000000`–`0x0800000F`. -/
theorem c7_extended_linear :
    (∀ (st : BuildState) (r : HexRecord) (b1 b0 : Nat),
      r.rtype = .extLinearAddr → r.data = [b1, b0] →
      (applyRecord st r).base = (256 * b1 + b0) * 65536 ∧
      (applyRecord st r).memory = st.memory ∧
      (applyRecord st r).entryPoint = st.entryPoint) ∧
    (∀ (st : BuildState) (r : HexRecord) (i : Nat),
      r.rtype = .data → i < r.data.length →
      (applyRecord st r).memory.lookup (st.base + r.address + i) =
        some (r.data.getD i 0)) ∧
    ((List.range 16).map
        (fun i => (loadString ⟨[], [], none⟩ sample3).1.memory.lookup (0x08000000 + i)) =
      samplePayload.map some) := by
  refine ⟨?_, ?_, by decide⟩
  · intro st r b1 b0 ht hd
    unfold applyRecord
    rw [ht]
    refine ⟨?_, rfl, rfl⟩
    have hbe : beVal r.data = 256 * b1 + b0 := by
      rw [hd]
      unfold beVal
      simp [List.foldl]
    simp [hbe]
  · intro st r i ht hi
    unfold applyRecord
    rw [ht]
    exact lookup_writeBytesAux _ _ _ _ hi

theorem c7_extended_linear_witness :
    ((⟨2, 0, .extLinearAddr, 4, [8, 0], 0xF2⟩ : HexRecord).rtype = .extLinearAddr) ∧
    ((applyRecord ⟨0, [], none⟩ ⟨2, 0, .extLinearAddr, 4, [8, 0], 0xF2⟩).base =
      (256 * 8 + 0) * 65536) ∧
    ((applyRecord ⟨0, [], none⟩ ⟨16, 0, .data, 0, samplePayload, 2⟩).memory.lookup
        ((⟨0, [], none⟩ : BuildState).base +
          (⟨16, 0, .data, 0, samplePayload, 2⟩ : HexRecord).address + 3) =
      some ((⟨16, 0, .data, 0, samplePayload, 2⟩ : HexRecord).data.getD 3 0)) :=
  ⟨rfl,
   (c7_extended_linear.1 ⟨0, [], none⟩ ⟨2, 0, .extLinearAddr, 4, [8, 0], 0xF2⟩ 8 0 rfl rfl).1,
   c7_extended_linear.2.1 ⟨0, [], none⟩ ⟨16, 0, .data, 0, samplePayload, 2⟩ 3 rfl (by decide)⟩

/-- C8: with explicit bounds `start ≤ stop`, `to_binary` returns exactly
`stop - start + 1` bytes, and the byte at offset `a - start` is the stored
byte at address `a` when present, else the fill byte. -/
theorem c8_to_binary : ∀ (mem : List (Nat × Nat)) (fill s e a : Nat), s ≤ e → s ≤ a → a ≤ e →
    (toBinary mem fill s e).length = e - s + 1 ∧
    (toBinary mem fill s e).get? (a - s) = some ((mem.lookup a).getD fill) := by
  intro mem fill s e a _ h1 h2
  constructor
  · simp [toBinary]
  · have hlt : a - s < e - s + 1 := by omega
    unfold toBinary
    rw [List.get?_map, List.get?_range hlt]
    have hsa : s + (a - s) = a := by omega
    simp [hsa]

theorem c8_to_binary_witness :
    ((0 : Nat) ≤ 0x13 ∧ (0 : Nat) ≤ 5 ∧ (5 : Nat) ≤ 0x13) ∧
    ((toBinary [(0, 0xAA), (1, 0xBB), (2, 0xCC), (3, 0xDD)] 0xFF 0 0x13).length =
        0x13 - 0 + 1 ∧
      (toBinary [(0, 0xAA), (1, 0xBB), (2, 0xCC), (3, 0xDD)] 0xFF 0 0x13).get? (5 - 0) =
        some ((([(0, 0xAA), (1, 0xBB), (2, 0xCC), (3, 0xDD)] : List (Nat × Nat)).lookup 5).getD
          0xFF)) :=
  ⟨⟨by decide, by decide, by decide⟩,
   c8_to_binary [(0, 0xAA), (1, 0xBB), (2, 0xCC), (3, 0xDD)] 0xFF 0 0x13 5
     (by decide) (by decide) (by decide)⟩

theorem chunkFrom_expand : ∀ (l : List (Nat × Nat)) (start k : Nat) (d : List Nat)
    (r : List (Nat × Nat)), chunkFrom start k l = (d, r) →
    expandFrom (start + k) d ++ r = l
  | [], start, k, d, r, h => by
    unfold chunkFrom at h
    cases h
    rfl
  | (a, b) :: rest, start, k, d, r, h => by
    unfold chunkFrom at h
    by_cases hc : k < 128 ∧ a = start + k
    · rw [if_pos hc] at h
      cases h
      have ih := chunkFrom_expand rest start (k + 1)
        (chunkFrom start (k + 1) rest).1 (chunkFrom start (k + 1) rest).2 rfl
      unfold expandFrom
      rw [List.cons_append, show start + k + 1 = start + (k + 1) from by omega, ih, hc.2]
    · rw [if_neg hc] at h
      cases h
      rfl

theorem chunkFrom_snd_length : ∀ (l : List (Nat × Nat)) (start k : Nat),
    (chunkFrom start k l).2.length ≤ l.length
  | [], _, _ => by simp [chunkFrom]
  | (a, b) :: rest, start, k => by
    unfold chunkFrom
    by_cases hc : k < 128 ∧ a = start + k
    · rw [if_pos hc]
      have := chunkFrom_snd_length rest start (k + 1)
      simp only [List.length_cons]
      omega
    · rw [if_neg hc]

theorem chunkFrom_fst_length : ∀ (l : List (Nat × Nat)) (start k : Nat),
    (chunkFrom start k l).1.length ≤ 128 - k
  | [], _, _ => by simp [chunkFrom]
  | (a, b) :: rest, start, k => by
    unfold chunkFrom
    by_cases hc : k < 128 ∧ a = start + k
    · rw [if_pos hc]
      have := chunkFrom_fst_length rest start (k + 1)
      simp only [List.length_cons]
      omega
    · rw [if_neg hc]
      simp

theorem chunksF_expand : ∀ (n : Nat) (l : List (Nat × Nat)), l.length ≤ n →
    expandChunks (chunksF n l) = l := by
  intro n
  induction n with
  | zero =>
    intro l hl
    have h0 : l = [] := List.length_eq_zero.mp (Nat.le_zero.mp hl)
    subst h0
    rfl
  | succ n ih =>
    intro l hl
    rcases l with _ | ⟨⟨a, b⟩, rest⟩
    · rfl
    · unfold chunksF expandChunks expandFrom
      rw [List.cons_append]
      have hr := chunkFrom_snd_length rest a 1
      have hlen : (chunkFrom a 1 rest).2.length ≤ n := by
        simp [List.length_cons] at hl
        omega
      rw [ih _ hlen, chunkFrom_expand rest a 1 _ _ rfl]

theorem chunks_expand (l : List (Nat × Nat)) : expandChunks (chunks l) = l :=
  chunksF_expand l.length l (Nat.le_refl _)

theorem chunksF_size : ∀ (n : Nat) (l : List (Nat × Nat)) (c : Nat × List Nat),
    c ∈ chunksF n l → 0 < c.2.length ∧ c.2.length ≤ 128 := by
  intro n
  induction n with
  | zero =>
    intro l c hc
    simp [chunksF] at hc
  | succ n ih =>
    intro l c hc
    rcases l with _ | ⟨⟨a, b⟩, rest⟩
    · simp [chunksF] at hc
    · unfold chunksF at hc
      rcases List.mem_cons.mp hc with h1 | h1
      · subst h1
        have := chunkFrom_fst_length rest a 1
        constructor
        · simp
        · simp only [List.length_cons]
          omega
      · exact ih _ _ h1

theorem expandFrom_map_snd : ∀ (d : List Nat) (a : Nat),
    (expandFrom a d).map Prod.snd = d
  | [], _ => rfl
  | b :: d, a => by
    unfold expandFrom
    rw [List.map_cons, expandFrom_map_snd d (a + 1)]

theorem expandChunks_map {α : Type} : ∀ (cs : List (Nat × List Nat)) (f : Nat × Nat → α),
    (expandChunks cs).map f = cs.flatMap (fun c => (expandFrom c.1 c.2).map f)
  | [], _ => rfl
  | c :: t, f => by
    unfold expandChunks
    rw [List.map_append, List.flatMap_cons, expandChunks_map t f]

theorem expandFrom_map_fst_mod : ∀ (d : List Nat) (a : Nat),
    (List.range d.length).map (fun i => (a + i) % 256) =
      (expandFrom a d).map (fun p => p.1 % 256)
  | [], _ => rfl
  | b :: d, a => by
    unfold expandFrom
    rw [List.map_cons, List.length_cons, List.range_succ_eq_map, List.map_cons,
      Nat.add_zero, List.map_map]
    have ih := expandFrom_map_fst_mod d (a + 1)
    rw [← ih]
    refine congrArg (fun t => (a % 256) :: t) ?_
    refine List.map_congr_left ?_
    intro i _
    simp only [Function.comp_apply]
    omega

/-- C6: the serial transfer agent's coalescing loop emits every stored
`(address, byte)` pair exactly once in ascending order (its batches expand to
exactly the input pair list); each batch is nonempty, holds at most the chunk
size of 128 bytes, and covers consecutive absolute addresses; the
concatenation of the batch data equals the image bytes in ascending order;
the wire sends `start & 0xFF` per batch, and the per-byte 8-bit addresses it
induces equal the per-byte `address & 0xFF` stream of the GPIO agent. -/
theorem c6_transfer : ∀ (l : List (Nat × Nat)) (c : Nat × List Nat),
    List.Chain' (fun p q => p.1 < q.1) l →
    expandChunks (chunks l) = l ∧
    (c ∈ chunks l → 0 < c.2.length ∧ c.2.length ≤ 128) ∧
    (chunks l).flatMap (fun c => c.2) = l.map Prod.snd ∧
    transferEmits l = (chunks l).map (fun c => (c.1 % 256, c.2)) ∧
    (transferEmits l).flatMap
        (fun c => (List.range c.2.length).map (fun i => (c.1 + i) % 256)) =
      (gpioEmits l).map Prod.fst := by
  intro l c _
  refine ⟨chunks_expand l, fun hc => chunksF_size _ _ _ hc, ?_, rfl, ?_⟩
  · have h1 : (expandChunks (chunks l)).map Prod.snd = l.map Prod.snd := by
      rw [chunks_expand]
    rw [expandChunks_map] at h1
    simp only [expandFrom_map_snd] at h1
    exact h1
  · have h2 : (expandChunks (chunks l)).map (fun p => p.1 % 256) =
        l.map (fun p => p.1 % 256) := by
      rw [chunks_expand]
    rw [expandChunks_map] at h2
    unfold transferEmits
    rw [List.flatMap_map]
    have h3 : ∀ c : Nat × List Nat,
        (List.range c.2.length).map (fun i => (c.1 % 256 + i) % 256) =
          (expandFrom c.1 c.2).map (fun p => p.1 % 256) := by
      intro c
      rw [← expandFrom_map_fst_mod]
      refine List.map_congr_left ?_
      intro i _
      exact Nat.mod_add_mod _ _ _
    simp only [h3]
    rw [h2]
    unfold gpioEmits
    rw [List.map_map]
    rfl

theorem c6_transfer_witness :
    List.Chain' (fun p q : Nat × Nat => p.1 < q.1) [(0x100, 5), (0x101, 6), (0x103, 7)] ∧
    (expandChunks (chunks [(0x100, 5), (0x101, 6), (0x103, 7)]) =
        [(0x100, 5), (0x101, 6), (0x103, 7)] ∧
      (((0x100, [5, 6]) : Nat × List Nat) ∈ chunks [(0x100, 5), (0x101, 6), (0x103, 7)] →
        0 < ((0x100, [5, 6]) : Nat × List Nat).2.length ∧
          ((0x100, [5, 6]) : Nat × List Nat).2.length ≤ 128) ∧
      (chunks [(0x100, 5), (0x101, 6), (0x103, 7)]).flatMap (fun c => c.2) =
        [(0x100, 5), (0x101, 6), (0x103, 7)].map Prod.snd ∧
      transferEmits [(0x100, 5), (0x101, 6), (0x103, 7)] =
        (chunks [(0x100, 5), (0x101, 6), (0x103, 7)]).map (fun c => (c.1 % 256, c.2)) ∧
      (transferEmits [(0x100, 5), (0x101, 6), (0x103, 7)]).flatMap
          (fun c => (List.range c.2.length).map (fun i => (c.1 + i) % 256)) =
        (gpioEmits [(0x100, 5), (0x101, 6), (0x103, 7)]).map Prod.fst) :=
  ⟨by simp [List.chain'_cons], c6_transfer _ (0x100, [5, 6]) (by simp [List.chain'_cons])⟩

theorem chain_lt_head {e : Nat} {ll : List Nat} (h : List.Chain' (· < ·) (e :: ll)) :
    ∀ x ∈ ll, e < x := by
  rw [List.chain'_iff_pairwise] at h
  exact (List.pairwise_cons.mp h).1

theorem regionsAux_head : ∀ (ll : List Nat) (s e : Nat),
    ∃ e2 t, regionsAux s e ll = (s, e2) :: t
  | [], s, e => ⟨e, [], rfl⟩
  | a :: rest, s, e => by
    unfold regionsAux
    by_cases hc : a = e + 1
    · rw [if_pos hc]
      exact regionsAux_head rest s a
    · rw [if_neg hc]
      exact ⟨e, _, rfl⟩

theorem regionsAux_bounds : ∀ (ll : List Nat) (s e : Nat), s ≤ e →
    List.Chain' (· < ·) (e :: ll) →
    ∀ p ∈ regionsAux s e ll, s ≤ p.1 ∧ p.1 ≤ p.2 ∧ e ≤ p.2
  | [], s, e, hse, _, p, hp => by
    simp [regionsAux] at hp
    subst hp
    exact ⟨Nat.le_refl _, hse, Nat.le_refl _⟩
  | a :: rest, s, e, hse, hch, p, hp => by
    have he_a : e < a := (List.chain'_cons.mp hch).1
    have hch2 : List.Chain' (· < ·) (a :: rest) := (List.chain'_cons.mp hch).2
    unfold regionsAux at hp
    by_cases hc : a = e + 1
    · rw [if_pos hc] at hp
      obtain ⟨h1, h2, h3⟩ := regionsAux_bounds rest s a (by omega) hch2 p hp
      exact ⟨h1, h2, by omega⟩
    · rw [if_neg hc] at hp
      rcases List.mem_cons.mp hp with h1 | h1
      · subst h1
        exact ⟨Nat.le_refl _, hse, Nat.le_refl _⟩
      · obtain ⟨h1, h2, h3⟩ := regionsAux_bounds rest a a (Nat.le_refl _) hch2 p h1
        exact ⟨by omega, h2, by omega⟩

theorem regionsAux_mem_iff : ∀ (ll : List Nat) (s e x : Nat), s ≤ e →
    List.Chain' (· < ·) (e :: ll) →
    ((∃ p ∈ regionsAux s e ll, p.1 ≤ x ∧ x ≤ p.2) ↔ ((s ≤ x ∧ x ≤ e) ∨ x ∈ ll))
  | [], s, e, x, hse, _ => by
    simp [regionsAux]
  | a :: rest, s, e, x, hse, hch => by
    have he_a : e < a := (List.chain'_cons.mp hch).1
    have hch2 : List.Chain' (· < ·) (a :: rest) := (List.chain'_cons.mp hch).2
    unfold regionsAux
    by_cases hc : a = e + 1
    · rw [if_pos hc, regionsAux_mem_iff rest s a x (by omega) hch2]
      constructor
      · rintro (⟨h1, h2⟩ | h3)
        · by_cases hx : x = a
          · exact Or.inr (List.mem_cons.mpr (Or.inl hx))
          · exact Or.inl ⟨h1, by omega⟩
        · exact Or.inr (List.mem_cons.mpr (Or.inr h3))
      · rintro (⟨h1, h2⟩ | hx)
        · exact Or.inl ⟨h1, by omega⟩
        · rcases List.mem_cons.mp hx with h1 | h1
          · exact Or.inl ⟨by omega, by omega⟩
          · exact Or.inr h1
    · rw [if_neg hc]
      have hiff := regionsAux_mem_iff rest a a x (Nat.le_refl _) hch2
      constructor
      · rintro ⟨p, hp, hpx⟩
        rcases List.mem_cons.mp hp with h1 | h1
        · subst h1
          exact Or.inl hpx
        · rcases hiff.mp ⟨p, h1, hpx⟩ with ⟨h2, h3⟩ | h2
          · exact Or.inr (List.mem_cons.mpr (Or.inl (by omega)))
          · exact Or.inr (List.mem_cons.mpr (Or.inr h2))
      · rintro (⟨h1, h2⟩ | hx)
        · exact ⟨(s, e), List.mem_cons_self _ _, h1, h2⟩
        · rcases List.mem_cons.mp hx with h1 | h1
          · obtain ⟨p, hp, hpx⟩ := hiff.mpr (Or.inl ⟨by omega, by omega⟩)
            exact ⟨p, List.mem_cons.mpr (Or.inr hp), hpx⟩
          · obtain ⟨p, hp, hpx⟩ := hiff.mpr (Or.inr h1)
            exact ⟨p, List.mem_cons.mpr (Or.inr hp), hpx⟩

theorem regionsAux_chain : ∀ (ll : List Nat) (s e : Nat), s ≤ e →
    List.Chain' (· < ·) (e :: ll) →
    List.Chain' (fun p q : Nat × Nat => p.1 ≤ p.2 ∧ p.2 + 1 < q.1) (regionsAux s e ll)
  | [], s, e, hse, _ => by
    simp [regionsAux]
  | a :: rest, s, e, hse, hch => by
    have he_a : e < a := (List.chain'_cons.mp hch).1
    have hch2 : List.Chain' (· < ·) (a :: rest) := (List.chain'_cons.mp hch).2
    unfold regionsAux
    by_cases hc : a = e + 1
    · rw [if_pos hc]
      exact regionsAux_chain rest s a (by omega) hch2
    · rw [if_neg hc]
      rw [List.chain'_cons']
      refine ⟨?_, regionsAux_chain rest a a (Nat.le_refl _) hch2⟩
      intro q hq
      obtain ⟨e2, t, hh⟩ := regionsAux_head rest a a
      rw [hh] at hq
      simp at hq
      subst hq
      exact ⟨hse, by omega⟩

theorem regionsAux_maximal : ∀ (ll : List Nat) (s e : Nat), s ≤ e →
    List.Chain' (· < ·) (e :: ll) →
    ∀ p ∈ regionsAux s e ll,
      ¬((s ≤ p.2 + 1 ∧ p.2 + 1 ≤ e) ∨ p.2 + 1 ∈ ll) ∧
      (0 < p.1 → ¬((s ≤ p.1 - 1 ∧ p.1 - 1 ≤ e) ∨ p.1 - 1 ∈ ll))
  | [], s, e, hse, _, p, hp => by
    simp [regionsAux] at hp
    subst hp
    constructor
    · rintro (⟨h1, h2⟩ | h3)
      · omega
      · simp at h3
    · rintro hpos (⟨h1, h2⟩ | h3)
      · omega
      · simp at h3
  | a :: rest, s, e, hse, hch, p, hp => by
    have he_a : e < a := (List.chain'_cons.mp hch).1
    have hch2 : List.Chain' (· < ·) (a :: rest) := (List.chain'_cons.mp hch).2
    have hrest : ∀ x ∈ rest, a < x := chain_lt_head hch2
    unfold regionsAux at hp
    by_cases hc : a = e + 1
    · rw [if_pos hc] at hp
      obtain ⟨ih1, ih2⟩ := regionsAux_maximal rest s a (by omega) hch2 p hp
      constructor
      · rintro (⟨h1, h2⟩ | h3)
        · exact ih1 (Or.inl ⟨h1, by omega⟩)
        · rcases List.mem_cons.mp h3 with h4 | h4
          · exact ih1 (Or.inl ⟨by omega, by omega⟩)
          · exact ih1 (Or.inr h4)
      · rintro hpos (⟨h1, h2⟩ | h3)
        · exact ih2 hpos (Or.inl ⟨h1, by omega⟩)
        · rcases List.mem_cons.mp h3 with h4 | h4
          · exact ih2 hpos (Or.inl ⟨by omega, by omega⟩)
          · exact ih2 hpos (Or.inr h4)
    · rw [if_neg hc] at hp
      rcases List.mem_cons.mp hp with h1 | h1
      · subst h1
        constructor
        · rintro (⟨h1, h2⟩ | h3)
          · omega
          · rcases List.mem_cons.mp h3 with h4 | h4
            · omega
            · have := hrest _ h4
              omega
        · rintro hpos (⟨h1, h2⟩ | h3)
          · omega
          · rcases List.mem_cons.mp h3 with h4 | h4
            · omega
            · have := hrest _ h4
              omega
      · obtain ⟨hb1, hb2, hb3⟩ := regionsAux_bounds rest a a (Nat.le_refl _) hch2 p h1
        obtain ⟨ih1, ih2⟩ := regionsAux_maximal rest a a (Nat.le_refl _) hch2 p h1
        constructor
        · rintro (⟨h2, h3⟩ | h3)
          · omega
          · rcases List.mem_cons.mp h3 with h4 | h4
            · omega
            · exact ih1 (Or.inr h4)
        · rintro hpos (⟨h2, h3⟩ | h3)
          · omega
          · rcases List.mem_cons.mp h3 with h4 | h4
            · exact ih2 hpos (Or.inl ⟨by omega, by omega⟩)
            · exact ih2 hpos (Or.inr h4)

/-- C9: over the sorted distinct addresses of the image, `regions()` returns
inclusive ranges whose union is exactly the address set, each with
`start ≤ end`, sorted ascending by start, consecutive ranges separated by a
gap of more than 1 (hence neither overlapping nor adjacent), and each range
maximal (the addresses just beyond either end are absent) — which together
force the minimal number of maximal contiguous ranges. -/
theorem c9_regions : ∀ (l : List Nat) (x : Nat) (p : Nat × Nat),
    List.Chain' (· < ·) l →
    ((x ∈ l ↔ ∃ q ∈ regions l, q.1 ≤ x ∧ x ≤ q.2) ∧
     (p ∈ regions l → p.1 ≤ p.2) ∧
     List.Chain' (fun p q : Nat × Nat => p.2 + 1 < q.1) (regions l) ∧
     List.Chain' (fun p q : Nat × Nat => p.1 < q.1) (regions l) ∧
     (p ∈ regions l → p.2 + 1 ∉ l ∧ (0 < p.1 → p.1 - 1 ∉ l))) := by
  intro l x p hch
  rcases l with _ | ⟨a, rest⟩
  · simp [regions]
  · unfold regions
    refine ⟨?_, ?_, ?_, ?_, ?_⟩
    · rw [regionsAux_mem_iff rest a a x (Nat.le_refl _) hch, List.mem_cons]
      constructor
      · rintro (h1 | h1)
        · exact Or.inl ⟨by omega, by omega⟩
        · exact Or.inr h1
      · rintro (⟨h1, h2⟩ | h1)
        · exact Or.inl (by omega)
        · exact Or.inr h1
    · intro hp
      exact (regionsAux_bounds rest a a (Nat.le_refl _) hch p hp).2.1
    · exact (regionsAux_chain rest a a (Nat.le_refl _) hch).imp (fun p q h => h.2)
    · exact (regionsAux_chain rest a a (Nat.le_refl _) hch).imp (fun p q h => by omega)
    · intro hp
      obtain ⟨hm1, hm2⟩ := regionsAux_maximal rest a a (Nat.le_refl _) hch p hp
      constructor
      · intro hmem
        rcases List.mem_cons.mp hmem with h4 | h4
        · exact hm1 (Or.inl ⟨by omega, by omega⟩)
        · exact hm1 (Or.inr h4)
      · intro hpos hmem
        rcases List.mem_cons.mp hmem with h4 | h4
        · exact hm2 hpos (Or.inl ⟨by omega, by omega⟩)
        · exact hm2 hpos (Or.inr h4)

theorem c9_regions_witness :
    List.Chain' (· < ·) [0, 1, 2, 3, 16, 17, 18, 19] ∧
    ((2 ∈ [0, 1, 2, 3, 16, 17, 18, 19] ↔
        ∃ q ∈ regions [0, 1, 2, 3, 16, 17, 18, 19], q.1 ≤ 2 ∧ 2 ≤ q.2) ∧
     (((0, 3) : Nat × Nat) ∈ regions [0, 1, 2, 3, 16, 17, 18, 19] →
        ((0, 3) : Nat × Nat).1 ≤ ((0, 3) : Nat × Nat).2) ∧
     List.Chain' (fun p q : Nat × Nat => p.2 + 1 < q.1)
        (regions [0, 1, 2, 3, 16, 17, 18, 19]) ∧
     List.Chain' (fun p q : Nat × Nat => p.1 < q.1)
        (regions [0, 1, 2, 3, 16, 17, 18, 19]) ∧
     (((0, 3) : Nat × Nat) ∈ regions [0, 1, 2, 3, 16, 17, 18, 19] →
        ((0, 3) : Nat × Nat).2 + 1 ∉ [0, 1, 2, 3, 16, 17, 18, 19] ∧
          (0 < ((0, 3) : Nat × Nat).1 →
            ((0, 3) : Nat × Nat).1 - 1 ∉ [0, 1, 2, 3, 16, 17, 18, 19]))) :=
  ⟨by simp [List.chain'_cons],
   c9_regions [0, 1, 2, 3, 16, 17, 18, 19] 2 (0, 3) (by simp [List.chain'_cons])⟩

theorem pyStrip_nil : pyStrip [] = [] := rfl

theorem pySplitColon_W (t : List Char) :
    pySplitColon 3 ('W' :: ':' :: t) = ['W'] :: pySplitColon 2 t := rfl

theorem parseCommand_W {line : List Char} (t : List Char)
    (hs : pyStrip line = 'W' :: ':' :: t) :
    parseCommand line = parseW (pySplitColon 3 ('W' :: ':' :: t)) := by
  unfold parseCommand
  rw [hs]
  simp [List.isPrefixOf]

theorem parseW_cases : ∀ parts : List (List Char),
    isCmdW (parseW parts) = true ∨ parseW parts = .perr .formatErr ∨
      parseW parts = .perr .lengthErr := by
  intro parts
  rcases parts with _ | ⟨p0, _ | ⟨p1, _ | ⟨p2, _ | ⟨p3, _ | ⟨p4, rest⟩⟩⟩⟩⟩
  · simp [parseW]
  · simp [parseW]
  · simp [parseW]
  · simp [parseW]
  · cases h1 : pyIntHex p1 with
    | none => simp [parseW, h1]
    | some sa =>
      cases h2 : pyIntHex p2 with
      | none => simp [parseW, h1, h2]
      | some n =>
        by_cases hn0 : n = 0 ∨ 255 < n
        · simp [parseW, h1, h2, hn0]
        · by_cases hlen : (p3.length : Int) = n * 2
          · cases hc : parseChunks p3 with
            | none => simp [parseW, h1, h2, hn0, hlen, hc]
            | some d => simp [parseW, isCmdW, h1, h2, hn0, hlen, hc]
          · simp [parseW, h1, h2, hn0, hlen]
  · simp [parseW]

theorem accept_iff (s : List Char) :
    isCmdW (parseW (pySplitColon 3 s)) = true ↔ wAcceptAmended s = true := by
  unfold wAcceptAmended
  generalize pySplitColon 3 s = parts
  rcases parts with _ | ⟨p0, _ | ⟨p1, _ | ⟨p2, _ | ⟨p3, _ | ⟨p4, rest⟩⟩⟩⟩⟩
  · simp [parseW, isCmdW]
  · simp [parseW, isCmdW]
  · simp [parseW, isCmdW]
  · simp [parseW, isCmdW]
  · cases h1 : pyIntHex p1 with
    | none => simp [parseW, isCmdW, h1]
    | some sa =>
      cases h2 : pyIntHex p2 with
      | none => simp [parseW, isCmdW, h1, h2]
      | some n =>
        by_cases hn0 : n = 0 ∨ 255 < n
        · have hd : ¬(1 ≤ n) ∨ ¬(n ≤ 255) := by omega
          simp only [parseW, h1, h2]
          rw [if_pos hn0]
          rcases hd with hd | hd <;> simp [isCmdW, hd]
        · by_cases hlen : (p3.length : Int) = n * 2
          · have hn1 : 1 ≤ n := by
              have hpos : (0 : Int) ≤ (p3.length : Int) := Int.natCast_nonneg _
              omega
            have hn255 : n ≤ 255 := by omega
            have hlen2 : (p3.length : Int) = 2 * n := by omega
            cases hc : parseChunks p3 with
            | none =>
              simp [parseW, isCmdW, h1, h2, hn0, hlen, hc]
            | some d =>
              simp [parseW, isCmdW, h1, h2, hn0, hlen, hc, hn1, hn255, hlen2]
              omega
          · have hlen2 : ¬((p3.length : Int) = 2 * n) := by omega
            simp [parseW, isCmdW, h1, h2, hn0, hlen, hlen2]
  · simp [parseW, isCmdW]

theorem runStep_reply (line : List Char) (ps : PinState) (h : line ≠ []) :
    (runStep line ps).reply =
      match parseCommand line with
      | .perr c => some (errReply c)
      | .cmdP => some "OK:READY".toList
      | .cmdE => some "OK:END".toList
      | .cmdW _ _ _ => some "OK:WRITE".toList := by
  unfold runStep
  rw [if_neg h]
  cases parseCommand line <;> rfl

/-- C3 (amended): a `W:`-prefixed line is answered `OK:WRITE` iff it splits at
the first three colons into exactly four fields whose address and length
fields parse under Python `int(x, 16)`, the parsed length is in `[1, 255]`,
and the data field has exactly `2 * length` characters each consecutive
two-character group of which parses under `int(x, 16)` (so hex digits, but
also signed or whitespace-padded pairs); every other `W:`-prefixed line is
answered `ERR:FORMAT` or `ERR:LENGTH`. -/
theorem c3_w_reply_amended : ∀ (line : List Char) (ps : PinState) (t : List Char),
    pyStrip line = 'W' :: ':' :: t →
    (((runStep line ps).reply = some ("OK:WRITE".toList)) ↔
      wAcceptAmended (pyStrip line) = true) ∧
    ((runStep line ps).reply = some ("OK:WRITE".toList) ∨
     (runStep line ps).reply = some ("ERR:FORMAT".toList) ∨
     (runStep line ps).reply = some ("ERR:LENGTH".toList)) := by
  intro line ps t hs
  have hline : line ≠ [] := by
    intro h0
    rw [h0, pyStrip_nil] at hs
    cases hs
  have hpc : parseCommand line = parseW (pySplitColon 3 ('W' :: ':' :: t)) :=
    parseCommand_W t hs
  have hai := accept_iff ('W' :: ':' :: t)
  rw [hs, runStep_reply line ps hline, hpc]
  cases hp : parseW (pySplitColon 3 ('W' :: ':' :: t)) with
  | cmdP =>
    rcases parseW_cases (pySplitColon 3 ('W' :: ':' :: t)) with hw | hw | hw <;>
      rw [hp] at hw <;> cases hw
  | cmdE =>
    rcases parseW_cases (pySplitColon 3 ('W' :: ':' :: t)) with hw | hw | hw <;>
      rw [hp] at hw <;> cases hw
  | cmdW sa n d =>
    rw [hp] at hai
    simp only [isCmdW] at hai
    constructor
    · constructor
      · intro _
        exact hai.mp trivial
      · intro _
        rfl
    · left
      rfl
  | perr c =>
    rw [hp] at hai
    simp only [isCmdW] at hai
    have hnacc : ¬(wAcceptAmended ('W' :: ':' :: t) = true) := by
      intro hacc
      cases hai.mpr hacc
    rcases parseW_cases (pySplitColon 3 ('W' :: ':' :: t)) with hw | hw | hw
    · rw [hp] at hw
      cases hw
    · rw [hp] at hw
      cases hw
      refine ⟨⟨fun habs => absurd habs (by decide), fun hacc => absurd hacc hnacc⟩, ?_⟩
      right
      left
      rfl
    · rw [hp] at hw
      cases hw
      refine ⟨⟨fun habs => absurd habs (by decide), fun hacc => absurd hacc hnacc⟩, ?_⟩
      right
      right
      rfl

theorem c3_w_reply_counterexample :
    (runStep ("W:00:01:+1".toList) pinsInit).reply = some ("OK:WRITE".toList) ∧
    pySplitColon 3 (pyStrip ("W:00:01:+1".toList)) =
      ["W".toList, "00".toList, "01".toList, "+1".toList] ∧
    ("+1".toList.all isHexChar) = false := by
  decide

theorem c3_w_reply_amended_witness :
    pyStrip ("W:00:01:AB".toList) = 'W' :: ':' :: ("00:01:AB".toList) ∧
    ((((runStep ("W:00:01:AB".toList) pinsInit).reply = some ("OK:WRITE".toList)) ↔
       wAcceptAmended (pyStrip ("W:00:01:AB".toList)) = true) ∧
     ((runStep ("W:00:01:AB".toList) pinsInit).reply = some ("OK:WRITE".toList) ∨
      (runStep ("W:00:01:AB".toList) pinsInit).reply = some ("ERR:FORMAT".toList) ∨
      (runStep ("W:00:01:AB".toList) pinsInit).reply = some ("ERR:LENGTH".toList))) :=
  ⟨by decide,
   c3_w_reply_amended ("W:00:01:AB".toList) pinsInit ("00:01:AB".toList) (by decide)⟩

/-- C4 (amended): a received line whose whitespace-stripped form is `P` is
answered `OK:READY`; stripped form `E` is answered `OK:END` and the driver
resets all address and data pins to 0 and /WE to its inactive high level;
every other non-empty line whose stripped form is not `W:`-prefixed is
answered `ERR:COMMAND`; an empty received line is treated as no data and gets
no reply at all. -/
theorem c4_dispatch_amended : ∀ (line : List Char) (ps : PinState),
    (pyStrip line = ['P'] → runStep line ps = ⟨some ("OK:READY".toList), [], ps⟩) ∧
    (pyStrip line = ['E'] → runStep line ps = ⟨some ("OK:END".toList), [], resetPinsE ps⟩) ∧
    (line ≠ [] → pyStrip line ≠ ['P'] → pyStrip line ≠ ['E'] →
      List.isPrefixOf ['W', ':'] (pyStrip line) = false →
      runStep line ps = ⟨some ("ERR:COMMAND".toList), [], ps⟩) ∧
    (line = [] → runStep line ps = ⟨none, [], ps⟩) := by
  intro line ps
  refine ⟨?_, ?_, ?_, ?_⟩
  · intro hP
    have hline : line ≠ [] := by
      intro h0
      rw [h0, pyStrip_nil] at hP
      cases hP
    have hpc : parseCommand line = .cmdP := by
      unfold parseCommand
      rw [hP]
      rfl
    unfold runStep
    rw [if_neg hline, hpc]
  · intro hE
    have hline : line ≠ [] := by
      intro h0
      rw [h0, pyStrip_nil] at hE
      cases hE
    have hpc : parseCommand line = .cmdE := by
      unfold parseCommand
      rw [hE]
      rfl
    unfold runStep
    rw [if_neg hline, hpc]
  · intro hne hP hE hW
    have hpc : parseCommand line = .perr .commandErr := by
      unfold parseCommand
      rcases hsl : pyStrip line with _ | ⟨c, _ | ⟨c2, cs2⟩⟩
      · rfl
      · have hcP : ¬([c] = ['P']) := by
          intro h
          rw [h] at hsl
          exact hP hsl
        have hcE : ¬([c] = ['E']) := by
          intro h
          rw [h] at hsl
          exact hE hsl
        simp [hcP, hcE]
      · rw [hsl] at hW
        simp [hW]
    unfold runStep
    rw [if_neg hne, hpc]
    rfl
  · intro h0
    unfold runStep
    rw [if_pos h0]

theorem c4_dispatch_counterexample :
    (runStep (" P".toList) pinsInit).reply = some ("OK:READY".toList) ∧
    List.isPrefixOf ("W:".toList) (" P".toList) = false ∧
    (" P".toList ≠ "P".toList ∧ " P".toList ≠ "E".toList) ∧
    (runStep ([] : List Char) pinsInit).reply = none := by
  decide

theorem c4_dispatch_amended_witness :
    runStep ("P".toList) pinsInit = ⟨some ("OK:READY".toList), [], pinsInit⟩ ∧
    runStep (" E ".toList) pinsInit = ⟨some ("OK:END".toList), [], resetPinsE pinsInit⟩ ∧
    runStep ("X".toList) pinsInit = ⟨some ("ERR:COMMAND".toList), [], pinsInit⟩ ∧
    runStep ([] : List Char) pinsInit = ⟨none, [], pinsInit⟩ :=
  ⟨(c4_dispatch_amended ("P".toList) pinsInit).1 (by decide),
   (c4_dispatch_amended (" E ".toList) pinsInit).2.1 (by decide),
   (c4_dispatch_amended ("X".toList) pinsInit).2.2.1 (by decide) (by decide) (by decide)
     (by decide),
   (c4_dispatch_amended ([] : List Char) pinsInit).2.2.2 rfl⟩

/-- C10 (amended): the driver does not enforce the two-hex-digit field widths:
for every `W:`-prefixed line splitting into four fields whose address and
length fields parse as Python hexadecimal integers of any digit count (signed
literals such as `-1` included), acceptance holds iff the parsed length is in
`[1, 255]`, the data field has exactly `2 * length` characters, and each
consecutive two-character group of the data parses under `int(x, 16)`; an
out-of-range or negative start address is accepted and only reduced modulo
256 when each byte is written, as `W:-1:01:AB` writing at address 255
shows. -/
theorem c10_field_widths_amended :
    (∀ (line t p0 p1 p2 p3 : List Char) (a n : Int),
      pyStrip line = 'W' :: ':' :: t →
      pySplitColon 3 ('W' :: ':' :: t) = [p0, p1, p2, p3] →
      pyIntHex p1 = some a → pyIntHex p2 = some n →
      (isCmdW (parseCommand line) = true ↔
        (1 ≤ n ∧ n ≤ 255 ∧ (p3.length : Int) = 2 * n ∧ (parseChunks p3).isSome = true))) ∧
    parseCommand ("W:-1:01:AB".toList) = .cmdW (-1) 1 [0xAB] ∧
    handleWrite (-1) 1 [0xAB] = [(255, 0xAB)] := by
  refine ⟨?_, by decide, by decide⟩
  intro line t p0 p1 p2 p3 a n hs hsplit h1 h2
  rw [parseCommand_W t hs, hsplit]
  by_cases hn0 : n = 0 ∨ 255 < n
  · simp [parseW, isCmdW, h1, h2, hn0]
    intro hn1 hn255
    omega
  · by_cases hlen : (p3.length : Int) = n * 2
    · have hn1 : 1 ≤ n := by
        have hpos : (0 : Int) ≤ (p3.length : Int) := Int.natCast_nonneg _
        omega
      have hn255 : n ≤ 255 := by omega
      have hlen2 : (p3.length : Int) = 2 * n := by omega
      cases hc : parseChunks p3 with
      | none => simp [parseW, isCmdW, h1, h2, hn0, hlen, hc]
      | some d =>
        simp [parseW, isCmdW, h1, h2, hn0, hlen, hc, hn1, hn255, hlen2]
        omega
    · have hlen2 : ¬((p3.length : Int) = 2 * n) := by omega
      simp [parseW, isCmdW, h1, h2, hn0, hlen, hlen2]

theorem c10_field_widths_counterexample :
    isCmdW (parseCommand ("W:00:01:-1".toList)) = true ∧
    pySplitColon 3 (pyStrip ("W:00:01:-1".toList)) =
      ["W".toList, "00".toList, "01".toList, "-1".toList] ∧
    pyIntHex ("00".toList) = some 0 ∧ pyIntHex ("01".toList) = some 1 ∧
    ("-1".toList.all isHexChar) = false := by
  decide

theorem c10_field_widths_amended_witness :
    (pyStrip ("W:-1:01:AB".toList) = 'W' :: ':' :: ("-1:01:AB".toList) ∧
     pySplitColon 3 ('W' :: ':' :: ("-1:01:AB".toList)) =
       ["W".toList, "-1".toList, "01".toList, "AB".toList] ∧
     pyIntHex ("-1".toList) = some (-1) ∧ pyIntHex ("01".toList) = some 1) ∧
    (isCmdW (parseCommand ("W:-1:01:AB".toList)) = true ↔
      (1 ≤ (1 : Int) ∧ (1 : Int) ≤ 255 ∧ ((("AB".toList).length : Nat) : Int) = 2 * 1 ∧
        (parseChunks ("AB".toList)).isSome = true)) :=
  ⟨⟨by decide, by decide, by decide, by decide⟩,
   c10_field_widths_amended.1 ("W:-1:01:AB".toList) ("-1:01:AB".toList) ("W".toList)
     ("-1".toList) ("01".toList) ("AB".toList) (-1) 1 (by decide) (by decide) (by decide)
     (by decide)⟩
